import Mathlib

/-!
Verification of the core analytic engines of the UnemploymentTracker
repository: the `SkillMatcher` (src/unemployment_tracker/processing/
skill_matcher.py) and the `TrendDetector` (src/unemployment_tracker/
processing/trend_detector.py).

Modelling conventions:
* Python floats are modelled as exact rationals (`ℚ`).
* Python sets of skill-id strings are modelled as `Finset String`.
* A Python dict of job profiles is modelled as an association list
  `List (String × Finset String)` in insertion order (Python dicts preserve
  insertion order); only the required-skill id set of a profile is relevant
  to the verified operations (`JobProfile.get_skill_ids`).
* `numpy` square root (used for the sample standard deviation) is modelled
  by `Rat.sqrt`; none of the proved statements depend on the numeric value
  of the square root beyond `Rat.sqrt 0 = 0`.
* NaN float values (the ddof=1 standard deviation of a single observation,
  and the z-scores derived from it) are modelled as `none` in `Option ℚ`;
  every IEEE comparison with NaN is false, matching the `none` branches.
* `detect_shocks` returns `Except Unit`: its grouped path raises in pandas
  on every non-empty frame (the `z_score` assignment built from
  `GroupBy.apply` over an ndarray-returning function), modelled as
  `Except.error ()`.
-/

namespace UT

/-- Mirror of the `TransitionPath` dataclass (skill_matcher.py, lines 37-60). -/
structure TransitionPath where
  source_job : String
  target_job : String
  skill_overlap : Finset String
  missing_skills : Finset String
  transition_difficulty : ℚ
  skill_gap : ℚ
  common_skills_count : ℕ
  missing_skills_count : ℕ
deriving DecidableEq

/-- Mirror of `SkillMatcher._create_transition_path` (skill_matcher.py, lines
234-257): common = intersection, missing = target minus source,
`skill_gap = len(missing)/len(target)` when the target set is truthy
(nonempty) and `1.0` otherwise, difficulty = `min(1.0, skill_gap)`. -/
def create_transition_path (source_job_id target_job_id : String)
    (source_skills target_skills : Finset String) : TransitionPath :=
  let common_skills := source_skills ∩ target_skills
  let missing_skills := target_skills \ source_skills
  let skill_gap : ℚ :=
    if target_skills = ∅ then 1 else (missing_skills.card : ℚ) / (target_skills.card : ℚ)
  { source_job := source_job_id
    target_job := target_job_id
    skill_overlap := common_skills
    missing_skills := missing_skills
    transition_difficulty := min 1 skill_gap
    skill_gap := skill_gap
    common_skills_count := common_skills.card
    missing_skills_count := missing_skills.card }

/-- Lookup of `self.job_profiles[job_id]` restricted to its skill-id set;
`none` models `job_id not in self.job_profiles`. -/
def lookupJob : List (String × Finset String) → String → Option (Finset String)
  | [], _ => none
  | e :: rest, j => if e.1 = j then some e.2 else lookupJob rest j

/-- Jaccard similarity of two skill-id sets (skill_matcher.py, lines
137-140): `intersection / union if union > 0 else 0`. -/
def jaccard (a b : Finset String) : ℚ :=
  if 0 < ((a ∪ b).card : ℚ) then ((a ∩ b).card : ℚ) / ((a ∪ b).card : ℚ) else 0

/-- Mirror of `SkillMatcher.find_similar_jobs` (skill_matcher.py, lines
109-146): skip the source job and any candidate with an empty skill set,
compute the Jaccard similarity, keep candidates with similarity at least
`min_skill_overlap`, sort by similarity descending and take `top_n`. -/
def find_similar_jobs (catalog : List (String × Finset String))
    (source_job_id : String) (top_n : ℕ) (min_skill_overlap : ℚ) :
    List (String × ℚ) :=
  match lookupJob catalog source_job_id with
  | none => []
  | some source_skills =>
    let similarities := catalog.filterMap (fun e =>
      if e.1 = source_job_id then none
      else if e.2 = ∅ then none
      else if min_skill_overlap ≤ jaccard source_skills e.2 then
        some (e.1, jaccard source_skills e.2)
      else none)
    (similarities.insertionSort (fun a b => b.2 ≤ a.2)).take top_n

/-- One-hop intermediate candidate paths of `find_transition_paths`
(skill_matcher.py, lines 180-217): for every catalog job other than source
and target, build both legs and keep the combined path when both legs have
difficulty < 1.0. -/
def intermediatePaths (catalog : List (String × Finset String))
    (source_job_id target_job_id : String)
    (source_skills target_skills : Finset String) : List TransitionPath :=
  catalog.filterMap (fun e =>
    if e.1 = source_job_id ∨ e.1 = target_job_id then none
    else
      let to_intermediate := create_transition_path source_job_id e.1 source_skills e.2
      let intermediate_to_target := create_transition_path e.1 target_job_id e.2 target_skills
      if to_intermediate.transition_difficulty < 1 ∧
         intermediate_to_target.transition_difficulty < 1 then
        some { source_job := source_job_id
               target_job := target_job_id
               skill_overlap := to_intermediate.skill_overlap ∪ intermediate_to_target.skill_overlap
               missing_skills := to_intermediate.missing_skills ∪ intermediate_to_target.missing_skills
               transition_difficulty := max to_intermediate.transition_difficulty
                 intermediate_to_target.transition_difficulty
               skill_gap := max to_intermediate.skill_gap intermediate_to_target.skill_gap
               common_skills_count := to_intermediate.common_skills_count +
                 intermediate_to_target.common_skills_count
               missing_skills_count := to_intermediate.missing_skills_count +
                 intermediate_to_target.missing_skills_count }
      else none)

/-- Candidate list of `find_transition_paths` before deduplication
(skill_matcher.py, lines 220-221): the direct path followed by all
intermediate paths, keeping only those with difficulty < 1.0. -/
def candidatePaths (catalog : List (String × Finset String))
    (source_job_id target_job_id : String)
    (source_skills target_skills : Finset String) : List TransitionPath :=
  (create_transition_path source_job_id target_job_id source_skills target_skills ::
    intermediatePaths catalog source_job_id target_job_id source_skills target_skills).filter
    (fun p => p.transition_difficulty < 1)

/-- First-match lookup in the `unique_paths` dict keyed by frozen missing-skill
sets (skill_matcher.py, lines 224-229). -/
def lookupKey : List (Finset String × TransitionPath) → Finset String →
    Option TransitionPath
  | [], _ => none
  | e :: rest, k => if e.1 = k then some e.2 else lookupKey rest k

/-- In-place replacement of the value stored at a key, preserving key order,
as Python dict assignment `unique_paths[key] = path` does for a present key. -/
def updateAt : List (Finset String × TransitionPath) → Finset String →
    TransitionPath → List (Finset String × TransitionPath)
  | [], _, _ => []
  | e :: rest, k, p => if e.1 = k then (e.1, p) :: rest else e :: updateAt rest k p

/-- One iteration of the dedup loop (skill_matcher.py, lines 225-229): insert
the path under its missing-skill key if the key is new, otherwise replace the
stored path only when the new one has strictly lower difficulty. -/
def dedupStep (acc : List (Finset String × TransitionPath)) (p : TransitionPath) :
    List (Finset String × TransitionPath) :=
  match lookupKey acc p.missing_skills with
  | none => acc ++ [(p.missing_skills, p)]
  | some q =>
    if p.transition_difficulty < q.transition_difficulty then
      updateAt acc p.missing_skills p
    else acc

/-- The `unique_paths` dict of `find_transition_paths` flattened to its values
in key-insertion order (skill_matcher.py, lines 224-231). -/
def dedupPaths (paths : List TransitionPath) : List TransitionPath :=
  (paths.foldl dedupStep []).map Prod.snd

/-- Sort key of `find_transition_paths` (skill_matcher.py, lines 231-232):
ascending difficulty, ties broken by descending common-skills count. -/
def pathLe (a b : TransitionPath) : Prop :=
  a.transition_difficulty < b.transition_difficulty ∨
    (a.transition_difficulty = b.transition_difficulty ∧
      b.common_skills_count ≤ a.common_skills_count)

instance : DecidableRel pathLe := fun a b => by
  unfold pathLe; infer_instance

instance : IsTotal TransitionPath pathLe := by
  constructor
  intro a b
  unfold pathLe
  rcases lt_trichotomy a.transition_difficulty b.transition_difficulty with h | h | h
  · exact Or.inl (Or.inl h)
  · rcases le_total b.common_skills_count a.common_skills_count with hc | hc
    · exact Or.inl (Or.inr ⟨h, hc⟩)
    · exact Or.inr (Or.inr ⟨h.symm, hc⟩)
  · exact Or.inr (Or.inl h)

instance : IsTrans TransitionPath pathLe := by
  constructor
  intro a b c hab hbc
  unfold pathLe at *
  rcases hab with h₁ | ⟨h₁, hc₁⟩
  · rcases hbc with h₂ | ⟨h₂, _⟩
    · exact Or.inl (h₁.trans h₂)
    · exact Or.inl (h₂ ▸ h₁)
  · rcases hbc with h₂ | ⟨h₂, hc₂⟩
    · exact Or.inl (h₁ ▸ h₂)
    · exact Or.inr ⟨h₁.trans h₂, hc₂.trans hc₁⟩

/-- Mirror of `SkillMatcher.find_transition_paths` (skill_matcher.py, lines
148-232). Unknown source or target job yields `[]`; `max_hops ≤ 0` returns
just the direct path when feasible; otherwise direct and one-hop intermediate
candidates are filtered to difficulty < 1.0, deduplicated by missing-skill
set (keeping the strictly lower difficulty) and sorted by `pathLe`. -/
def find_transition_paths (catalog : List (String × Finset String))
    (source_job_id target_job_id : String) (max_hops : ℤ) : List TransitionPath :=
  match lookupJob catalog source_job_id, lookupJob catalog target_job_id with
  | some source_skills, some target_skills =>
    let direct_path :=
      create_transition_path source_job_id target_job_id source_skills target_skills
    if max_hops ≤ 0 then
      if direct_path.transition_difficulty < 1 then [direct_path] else []
    else
      (dedupPaths (candidatePaths catalog source_job_id target_job_id
        source_skills target_skills)).insertionSort pathLe
  | _, _ => []

/-! ### TrendDetector (trend_detector.py) -/

/-- Mirror of the `TrendDirection` enum (trend_detector.py, lines 7-12). -/
inductive TrendDirection where
  | increasing
  | decreasing
  | stable
  | volatile
deriving DecidableEq, Repr

/-- Mirror of the `TrendResult` dataclass (trend_detector.py, lines 14-23).
The `period` pair keeps the raw first/last timestamps; the source formats
them as ISO date strings, a presentation detail. The optional `metadata`
field is omitted: `_analyze_series` never sets it. -/
structure TrendResult where
  direction : TrendDirection
  magnitude : ℚ
  confidence : ℚ
  start_value : ℚ
  end_value : ℚ
  period : ℕ × ℕ
deriving DecidableEq, Repr

/-- One record of the tabular input: the values of the grouping columns (empty
list when the table has no grouping columns), a canonical timestamp (dates are
already parsed; `pd.to_datetime` is the identity on them) and the numeric
value column. -/
structure Row where
  key : List String
  date : ℕ
  value : ℚ
deriving DecidableEq, Repr

/-- Percentage change (trend_detector.py, line 118):
`(end_val - start_val) / start_val if start_val != 0 else 0`. -/
def pctChange (start_val end_val : ℚ) : ℚ :=
  if start_val ≠ 0 then (end_val - start_val) / start_val else 0

/-- R² confidence of `_analyze_series` (trend_detector.py, lines 107-115):
ordinary-least-squares fit of the values against positions 0..n-1
(`np.polyfit(x, values, 1)` equals this closed form on the full-rank case of
two or more points), then `1 - ss_res / ss_tot`, falling back to 0 when the
total sum of squares is zero. -/
def olsConfidence (values : List ℚ) : ℚ :=
  let n := values.length
  let xs : List ℚ := (List.range n).map (fun i => (i : ℚ))
  let xbar : ℚ := xs.sum / (n : ℚ)
  let ybar : ℚ := values.sum / (n : ℚ)
  let sxx : ℚ := (xs.map (fun x => (x - xbar) ^ 2)).sum
  let sxy : ℚ := ((xs.zip values).map (fun p => (p.1 - xbar) * (p.2 - ybar))).sum
  let slope : ℚ := sxy / sxx
  let intercept : ℚ := ybar - slope * xbar
  let ss_res : ℚ := ((xs.zip values).map (fun p => (p.2 - (intercept + slope * p.1)) ^ 2)).sum
  let ss_tot : ℚ := (values.map (fun y => (y - ybar) ^ 2)).sum
  if ss_tot ≠ 0 then 1 - ss_res / ss_tot else 0

/-- Direction classification of `_analyze_series` (trend_detector.py, lines
120-126): STABLE when `|pct_change| < threshold`, else INCREASING when
positive, else DECREASING. The VOLATILE variant appears in no branch. -/
def trendDirectionOf (threshold pct : ℚ) : TrendDirection :=
  if |pct| < threshold then TrendDirection.stable
  else if 0 < pct then TrendDirection.increasing
  else TrendDirection.decreasing

/-- Mirror of `TrendDetector._analyze_series` (trend_detector.py, lines
89-135): `none` below `min_periods` points, otherwise the trend record built
from first/last value, the direction classification, `|pct_change|` and the
R² confidence. -/
def analyze_series (min_periods : ℕ) (threshold : ℚ) (values : List ℚ)
    (dates : List ℕ) : Option TrendResult :=
  if values.length < min_periods then none
  else
    some { direction := trendDirectionOf threshold
             (pctChange (values.headD 0) (values.getLastD 0))
           magnitude := |pctChange (values.headD 0) (values.getLastD 0)|
           confidence := olsConfidence values
           start_value := values.headD 0
           end_value := values.getLastD 0
           period := (dates.headD 0, dates.getLastD 0) }

/-- Chronological sort relation used when no grouping columns are given
(`df.sort_values(by=date_col)`, trend_detector.py, line 64). -/
def dateLe (a b : Row) : Prop := a.date ≤ b.date

instance : DecidableRel dateLe := fun a b => by
  unfold dateLe; infer_instance

/-- Strict dictionary order on grouping-key tuples, matching how pandas
orders string group keys. -/
def keyLt : List String → List String → Bool
  | [], [] => false
  | [], _ :: _ => true
  | _ :: _, [] => false
  | x :: xs, y :: ys => if x < y then true else if x = y then keyLt xs ys else false

/-- Sort relation of `df.sort_values(by=[*group_cols, date_col])`
(trend_detector.py, line 64): by grouping key, then by date. -/
def keyDateLe (a b : Row) : Prop :=
  keyLt a.key b.key = true ∨ (a.key = b.key ∧ a.date ≤ b.date)

instance : DecidableRel keyDateLe := fun a b => by
  unfold keyDateLe; infer_instance

/-- Mirror of `TrendDetector.detect_trends` (trend_detector.py, lines 38-87).
Empty or too-short input yields the empty mapping; without grouping one
series keyed `"overall"` is analyzed; with grouping each group is analyzed
when it has at least `min_periods` rows, keyed by the comma-joined group key.
The result mapping (a Python dict) is modelled as an association list in
insertion order. -/
def detect_trends (min_periods : ℕ) (threshold : ℚ) (rows : List Row)
    (grouped : Bool) : List (String × TrendResult) :=
  if rows.length = 0 ∨ rows.length < min_periods then []
  else if grouped then
    let df := rows.insertionSort keyDateLe
    let keys := (df.map Row.key).dedup
    keys.filterMap (fun k =>
      let group_df := df.filter (fun r => r.key = k)
      if group_df.length < min_periods then none
      else
        match analyze_series min_periods threshold (group_df.map Row.value)
          (group_df.map Row.date) with
        | some result => some (String.intercalate "," k, result)
        | none => none)
  else
    let df := rows.insertionSort dateLe
    match analyze_series min_periods threshold (df.map Row.value)
      (df.map Row.date) with
    | some result => [("overall", result)]
    | none => []

/-- Arithmetic mean, `np.mean(values)`. -/
def meanQ (values : List ℚ) : ℚ := values.sum / (values.length : ℚ)

/-- Sample variance with one degree of freedom subtracted, the square of
`np.std(values, ddof=1)` (trend_detector.py, line 165), exact for two or more
observations. For one (or zero) observations numpy produces NaN (0/0); that
case is routed to `none` by `zscoreFor` before this ℚ-value is consulted, so
the degenerate ℚ-value of this quotient is never used. -/
def sampleVar (values : List ℚ) : ℚ :=
  (values.map (fun v => (v - meanQ values) ^ 2)).sum / ((values.length : ℚ) - 1)

/-- Sample standard deviation `np.std(values, ddof=1)` for two or more
observations. The float square root is modelled by `Rat.sqrt`; no proved
statement depends on its value beyond `Rat.sqrt 0 = 0`. -/
def sampleStd (values : List ℚ) : ℚ := Rat.sqrt (sampleVar values)

/-- Mirror of `calculate_zscores` (trend_detector.py, lines 162-166) at one
value of its series: `(values - mean) / std if std != 0 else zeros`. `none`
models a NaN z-score: for fewer than two observations `np.std(..., ddof=1)`
is NaN, `NaN != 0` is truthy in Python, and the division yields NaN; every
IEEE comparison with NaN is false downstream. -/
def zscoreFor (values : List ℚ) (x : ℚ) : Option ℚ :=
  if values.length ≤ 1 then none
  else if sampleStd values ≠ 0 then some ((x - meanQ values) / sampleStd values)
  else some 0

/-- The frame with its `z_score` column on the ungrouped path
(`df['z_score'] = calculate_zscores(df)`, trend_detector.py, line 172):
each row carries the z-score of its value within the whole series. -/
def withZ (rows : List Row) : List (Row × Option ℚ) :=
  rows.map (fun r => (r, zscoreFor (rows.map Row.value) r.value))

/-- One row of the shock-event frame returned by `detect_shocks`: the original
row together with its `z_score`, `shock_magnitude` and `shock_direction`
columns (trend_detector.py, lines 176-184). -/
structure ShockRow where
  row : Row
  z_score : ℚ
  shock_magnitude : ℚ
  shock_direction : String
deriving DecidableEq, Repr

/-- Sort relation of `shock_events.sort_values(by=['z_score'],
ascending=False)` (trend_detector.py, line 186): signed z-score descending. -/
def shockGe (a b : ShockRow) : Prop := b.z_score ≤ a.z_score

instance : DecidableRel shockGe := fun a b => by
  unfold shockGe; infer_instance

instance : IsTotal ShockRow shockGe := by
  constructor
  intro a b
  exact (le_total b.z_score a.z_score).imp id id

instance : IsTrans ShockRow shockGe := by
  constructor
  intro a b c hab hbc
  exact hbc.trans hab

/-- Mirror of `TrendDetector.detect_shocks` (trend_detector.py, lines
137-186). Empty input returns an empty frame. With grouping columns the call
raises on every non-empty frame, modelled by `Except.error`: line 170 applies
`calculate_zscores` (which returns a bare numpy array) through
`GroupBy.apply`, which wraps the arrays into a length-n_groups object Series,
so `df['z_score'] = ....values` raises ValueError whenever the number of
groups differs from the number of rows, and when every group is a single row
the object-dtype z_score column makes the boolean mask `df[shock_mask]`
raise instead — either way the grouped path never completes. Without
grouping the z-scored rows with `|z| ≥ z_threshold` are kept (a NaN z-score,
`none`, fails every comparison), annotated with magnitude and direction, and
sorted by signed z-score descending. -/
def detect_shocks (rows : List Row) (grouped : Bool) (z_threshold : ℚ) :
    Except Unit (List ShockRow) :=
  if rows.length = 0 then .ok []
  else if grouped then .error ()
  else
    let shock_events : List (Row × ℚ) := (withZ rows).filterMap (fun p =>
      match p.2 with
      | some z => if z_threshold ≤ |z| then some (p.1, z) else none
      | none => none)
    let annotated : List ShockRow := shock_events.map (fun p =>
      { row := p.1
        z_score := p.2
        shock_magnitude := |p.2|
        shock_direction := if (0 : ℚ) < p.2 then "positive" else "negative" })
    .ok (annotated.insertionSort shockGe)

/-! ### Frame-effect model

Pandas DataFrames are reference values: the caller and the function body see
the same frame object until the body rebinds `df = df.copy()`. To settle the
frame claim we model the heap explicitly: a frame is its rows plus any extra
named columns stamped onto it, the heap is a list of frames, and a caller
passes a reference (index). Both engines copy before writing
(trend_detector.py, lines 60 and 158), so every column write targets the
fresh copy. -/

/-- A pandas frame: base rows plus extra named float columns (NaN entries as
`none`) added by column assignment. -/
structure PFrame where
  base : List Row
  extraCols : List (String × List (Option ℚ))
deriving DecidableEq

/-- Heap-level mirror of a `detect_shocks` call (trend_detector.py, lines
155-186): read the caller's frame, return early on an empty frame, otherwise
allocate the copy (`df = df.copy()`, line 158) and write the parsed date
column onto it (line 159). On the grouped path the `z_score` assignment at
line 170 raises before writing anything further — only the copy was ever
touched. On the ungrouped path the `z_score` column (line 172) is written
onto the copy and the shock events are returned. -/
def detect_shocks_call (heap : List PFrame) (ref : ℕ) (grouped : Bool)
    (z_threshold : ℚ) : List PFrame × Except Unit (List ShockRow) :=
  match heap[ref]? with
  | none => (heap, .ok [])
  | some caller =>
    if caller.base.length = 0 then (heap, .ok [])
    else
      let dfRef := heap.length
      let heap1 := (heap ++ [caller]).set dfRef { caller with base := caller.base }
      if grouped then
        (heap1, .error ())
      else
        let zs := (withZ caller.base).map Prod.snd
        let heap2 := heap1.set dfRef
          { caller with extraCols := caller.extraCols ++ [("z_score", zs)] }
        (heap2, detect_shocks caller.base false z_threshold)

/-- Heap-level mirror of a `detect_trends` call (trend_detector.py, lines
56-87): read the caller's frame, return early when empty or too short,
otherwise allocate the copy (`df = df.copy()`, line 60) and write the parsed
date column onto it (line 63); `df = df.sort_values(...)` (line 64) rebinds
the local name to a new frame and mutates nothing. -/
def detect_trends_call (heap : List PFrame) (ref : ℕ) (min_periods : ℕ)
    (threshold : ℚ) (grouped : Bool) : List PFrame × List (String × TrendResult) :=
  match heap[ref]? with
  | none => (heap, [])
  | some caller =>
    if caller.base.length = 0 ∨ caller.base.length < min_periods then (heap, [])
    else
      let dfRef := heap.length
      let heap1 := (heap ++ [caller]).set dfRef { caller with base := caller.base }
      (heap1, detect_trends min_periods threshold caller.base grouped)

/-! ### Claims C2, C7, C9, C10 -/

/-- C2: for every catalog, source job id and target job id, and all positive
`max_hops` values `a` and `b`, `find_transition_paths` returns exactly the
same list: only single intermediate jobs are ever searched, so `max_hops`
beyond the positivity test has no effect on the result. -/
theorem C2_max_hops_beyond_one_no_effect
    (catalog : List (String × Finset String)) (s t : String) (a b : ℤ)
    (ha : 0 < a) (hb : 0 < b) :
    find_transition_paths catalog s t a = find_transition_paths catalog s t b := by
  cases h1 : lookupJob catalog s <;> cases h2 : lookupJob catalog t <;>
    simp only [find_transition_paths, h1, h2]
  rw [if_neg (by omega), if_neg (by omega)]

/-- Witness for C2 at a concrete catalog with `max_hops` 1 and 5. -/
theorem C2_max_hops_beyond_one_no_effect_witness :
    (0 : ℤ) < 1 ∧ (0 : ℤ) < 5 ∧
    find_transition_paths
        [("A", {"python", "sql"}), ("B", {"sql", "excel"}), ("C", {"python", "excel"})]
        "A" "B" 1 =
      find_transition_paths
        [("A", {"python", "sql"}), ("B", {"sql", "excel"}), ("C", {"python", "excel"})]
        "A" "B" 5 :=
  ⟨by decide, by decide,
    C2_max_hops_beyond_one_no_effect
      [("A", {"python", "sql"}), ("B", {"sql", "excel"}), ("C", {"python", "excel"})]
      "A" "B" 1 5 (by decide) (by decide)⟩

/-- C7: for every pair of skill sets, `create_transition_path` yields
`skill_gap = |target \ source| / |target|` with `skill_gap = 1` when the
target skill set is empty, and `transition_difficulty = min 1 skill_gap`;
on the concrete scenario with Job A skills `{python, sql}` and Job B skills
`{sql, excel}`, the Jaccard similarity computed by `find_similar_jobs` is
1/3, the missing skills of A→B are `{excel}`, the skill gap is 1/2 and the
transition difficulty is 0.5. -/
theorem C7_skill_gap_difficulty_and_scenario :
    (∀ (s t : String) (source_skills target_skills : Finset String),
      (create_transition_path s t source_skills target_skills).skill_gap =
        (if target_skills = ∅ then 1
         else ((target_skills \ source_skills).card : ℚ) / (target_skills.card : ℚ)) ∧
      (create_transition_path s t source_skills target_skills).transition_difficulty =
        min 1 (create_transition_path s t source_skills target_skills).skill_gap) ∧
    find_similar_jobs [("A", {"python", "sql"}), ("B", {"sql", "excel"})] "A" 5 (3/10) =
      [("B", 1/3)] ∧
    (create_transition_path "A" "B" {"python", "sql"} {"sql", "excel"}).missing_skills =
      {"excel"} ∧
    (create_transition_path "A" "B" {"python", "sql"} {"sql", "excel"}).skill_gap = 1/2 ∧
    (create_transition_path "A" "B" {"python", "sql"} {"sql", "excel"}).transition_difficulty
      = 1/2 := by
  refine ⟨fun s t ss ts => ⟨rfl, rfl⟩, ?_, ?_, ?_, ?_⟩
  · with_unfolding_all decide
  · with_unfolding_all decide
  · with_unfolding_all decide
  · with_unfolding_all decide

/-- C10: `find_similar_jobs` never returns a candidate whose required-skill
set is empty: every returned job id belongs to a catalog entry with a
nonempty skill set (such candidates are skipped before the similarity
computation, whatever `min_skill_overlap` is). -/
theorem C10_no_empty_skill_candidates
    (catalog : List (String × Finset String)) (source_job_id : String)
    (top_n : ℕ) (min_skill_overlap : ℚ) (p : String × ℚ)
    (hp : p ∈ find_similar_jobs catalog source_job_id top_n min_skill_overlap) :
    ∃ e ∈ catalog, e.1 = p.1 ∧ e.2 ≠ ∅ := by
  unfold find_similar_jobs at hp
  cases h : lookupJob catalog source_job_id with
  | none => rw [h] at hp; simp at hp
  | some source_skills =>
    rw [h] at hp
    have hp2 := List.mem_of_mem_take hp
    rw [List.mem_insertionSort] at hp2
    obtain ⟨e, he, hfe⟩ := List.mem_filterMap.mp hp2
    by_cases h1 : e.1 = source_job_id
    · rw [if_pos h1] at hfe
      exact absurd hfe (by simp)
    · rw [if_neg h1] at hfe
      by_cases h2 : e.2 = ∅
      · rw [if_pos h2] at hfe
        exact absurd hfe (by simp)
      · rw [if_neg h2] at hfe
        refine ⟨e, he, ?_, h2⟩
        by_cases h3 : min_skill_overlap ≤ jaccard source_skills e.2
        · rw [if_pos h3] at hfe
          have he1 := Option.some_inj.mp hfe
          rw [← he1]
        · rw [if_neg h3] at hfe
          exact absurd hfe (by simp)

/-- Witness for C10: the catalog holds a job "B" with an empty skill set and
`min_skill_overlap = 0` admits every computed similarity, yet the returned
candidate "C" comes from a nonempty-skill entry. -/
theorem C10_no_empty_skill_candidates_witness :
    ("C", (1 : ℚ)) ∈
        find_similar_jobs [("A", {"x"}), ("B", (∅ : Finset String)), ("C", {"x"})] "A" 5 0 ∧
    ∃ e ∈ [("A", ({"x"} : Finset String)), ("B", ∅), ("C", {"x"})],
      e.1 = ("C", (1 : ℚ)).1 ∧ e.2 ≠ ∅ :=
  ⟨by with_unfolding_all decide,
    C10_no_empty_skill_candidates [("A", {"x"}), ("B", ∅), ("C", {"x"})] "A" 5 0
      ("C", 1) (by with_unfolding_all decide)⟩

/-- C9: both engines leave the caller's frame untouched: after a
`detect_trends` or `detect_shocks` call the heap still holds the caller's
frame unchanged at its reference — both bodies copy the frame before any
column write, so no `z_score` or shock column ever appears on the input. -/
theorem C9_input_frame_unchanged (heap : List PFrame) (ref : ℕ)
    (min_periods : ℕ) (threshold : ℚ) (grouped : Bool) (z_threshold : ℚ) :
    ((detect_trends_call heap ref min_periods threshold grouped).1)[ref]? = heap[ref]? ∧
    ((detect_shocks_call heap ref grouped z_threshold).1)[ref]? = heap[ref]? := by
  constructor
  · cases h : heap[ref]? with
    | none => simp only [detect_trends_call, h]
    | some caller =>
      obtain ⟨hlt, -⟩ := List.getElem?_eq_some.mp h
      simp only [detect_trends_call, h]
      split
      · exact h
      · rw [List.getElem?_set_ne (by omega), List.getElem?_append_left hlt]
        exact h
  · cases h : heap[ref]? with
    | none => simp only [detect_shocks_call, h]
    | some caller =>
      obtain ⟨hlt, -⟩ := List.getElem?_eq_some.mp h
      simp only [detect_shocks_call, h]
      split
      · exact h
      · split
        · rw [List.getElem?_set_ne (by omega), List.getElem?_append_left hlt]
          exact h
        · rw [List.getElem?_set_ne (by omega), List.getElem?_set_ne (by omega),
            List.getElem?_append_left hlt]
          exact h

/-! ### Dictionary lemmas for the dedup loop of find_transition_paths -/

theorem lookupKey_eq_some {acc : List (Finset String × TransitionPath)}
    {k : Finset String} {v : TransitionPath} (h : lookupKey acc k = some v) :
    (k, v) ∈ acc := by
  induction acc with
  | nil => exact absurd h (by simp [lookupKey])
  | cons e rest ih =>
    rw [lookupKey] at h
    by_cases he : e.1 = k
    · rw [if_pos he] at h
      have hv := Option.some_inj.mp h
      exact List.mem_cons.mpr (Or.inl (by rw [← he, ← hv]))
    · rw [if_neg he] at h
      exact List.mem_cons.mpr (Or.inr (ih h))

theorem lookupKey_eq_none {acc : List (Finset String × TransitionPath)}
    {k : Finset String} (h : lookupKey acc k = none) :
    ∀ e ∈ acc, e.1 ≠ k := by
  induction acc with
  | nil => simp
  | cons a rest ih =>
    rw [lookupKey] at h
    by_cases ha : a.1 = k
    · rw [if_pos ha] at h
      cases h
    · rw [if_neg ha] at h
      intro e he
      rcases List.mem_cons.mp he with rfl | hmem
      · exact ha
      · exact ih h e hmem

theorem mem_updateAt {acc : List (Finset String × TransitionPath)}
    {k : Finset String} {p : TransitionPath} {e : Finset String × TransitionPath}
    (h : e ∈ updateAt acc k p) : e = (k, p) ∨ e ∈ acc := by
  induction acc with
  | nil => exact absurd h (by simp [updateAt])
  | cons a rest ih =>
    rw [updateAt] at h
    by_cases ha : a.1 = k
    · rw [if_pos ha] at h
      rcases List.mem_cons.mp h with rfl | hmem
      · exact Or.inl (by rw [ha])
      · exact Or.inr (List.mem_cons.mpr (Or.inr hmem))
    · rw [if_neg ha] at h
      rcases List.mem_cons.mp h with rfl | hmem
      · exact Or.inr (List.mem_cons.mpr (Or.inl rfl))
      · rcases ih hmem with h1 | h1
        · exact Or.inl h1
        · exact Or.inr (List.mem_cons.mpr (Or.inr h1))

theorem updateAt_map_fst (acc : List (Finset String × TransitionPath))
    (k : Finset String) (p : TransitionPath) :
    (updateAt acc k p).map Prod.fst = acc.map Prod.fst := by
  induction acc with
  | nil => rfl
  | cons a rest ih =>
    rw [updateAt]
    by_cases ha : a.1 = k
    · rw [if_pos ha]
      simp [ha]
    · rw [if_neg ha]
      simp [ih]

theorem mem_updateAt_of_ne {acc : List (Finset String × TransitionPath)}
    {k : Finset String} {p : TransitionPath} {e : Finset String × TransitionPath}
    (he : e ∈ acc) (hne : e.1 ≠ k) : e ∈ updateAt acc k p := by
  induction acc with
  | nil => exact absurd he (by simp)
  | cons a rest ih =>
    rw [updateAt]
    rcases List.mem_cons.mp he with rfl | hmem
    · rw [if_neg hne]
      exact List.mem_cons.mpr (Or.inl rfl)
    · by_cases ha : a.1 = k
      · rw [if_pos ha]
        exact List.mem_cons.mpr (Or.inr hmem)
      · rw [if_neg ha]
        exact List.mem_cons.mpr (Or.inr (ih hmem))

theorem mem_updateAt_self {acc : List (Finset String × TransitionPath)}
    {k : Finset String} {p : TransitionPath} (hk : k ∈ acc.map Prod.fst) :
    (k, p) ∈ updateAt acc k p := by
  induction acc with
  | nil => exact absurd hk (by simp)
  | cons a rest ih =>
    rw [updateAt]
    by_cases ha : a.1 = k
    · rw [if_pos ha]
      exact List.mem_cons.mpr (Or.inl (by rw [ha]))
    · rw [if_neg ha]
      have hk2 : k ∈ a.1 :: rest.map Prod.fst := by simpa using hk
      rcases List.mem_cons.mp hk2 with h | h
      · exact absurd h.symm ha
      · exact List.mem_cons.mpr (Or.inr (ih h))

theorem entry_eq_of_fst_eq :
    ∀ (acc : List (Finset String × TransitionPath)), (acc.map Prod.fst).Nodup →
    ∀ (e e2 : Finset String × TransitionPath), e ∈ acc → e2 ∈ acc → e.1 = e2.1 → e = e2 := by
  intro acc
  induction acc with
  | nil =>
    intro _ e e2 he
    exact absurd he (by simp)
  | cons a rest ih =>
    intro hnd e e2 he he2 hf
    rw [List.map_cons, List.nodup_cons] at hnd
    rcases List.mem_cons.mp he with rfl | hm
    · rcases List.mem_cons.mp he2 with rfl | hm2
      · rfl
      · exact absurd (by rw [hf]; exact List.mem_map_of_mem Prod.fst hm2) hnd.1
    · rcases List.mem_cons.mp he2 with rfl | hm2
      · exact absurd (by rw [← hf]; exact List.mem_map_of_mem Prod.fst hm) hnd.1
      · exact ih hnd.2 e e2 hm hm2 hf

theorem mem_dedupStep {acc : List (Finset String × TransitionPath)}
    {p : TransitionPath} {e : Finset String × TransitionPath}
    (h : e ∈ dedupStep acc p) :
    (e.1 = p.missing_skills ∧ e.2 = p) ∨ e ∈ acc := by
  cases hl : lookupKey acc p.missing_skills with
  | none =>
    simp only [dedupStep, hl] at h
    rcases List.mem_append.mp h with hm | hm
    · exact Or.inr hm
    · have he : e = (p.missing_skills, p) := by simpa using hm
      exact Or.inl (by rw [he]; exact ⟨rfl, rfl⟩)
  | some q =>
    simp only [dedupStep, hl] at h
    split at h
    · rcases mem_updateAt h with rfl | hm
      · exact Or.inl ⟨rfl, rfl⟩
      · exact Or.inr hm
    · exact Or.inr h

theorem nodup_keys_dedupStep {acc : List (Finset String × TransitionPath)}
    {p : TransitionPath} (h : (acc.map Prod.fst).Nodup) :
    ((dedupStep acc p).map Prod.fst).Nodup := by
  cases hl : lookupKey acc p.missing_skills with
  | none =>
    simp only [dedupStep, hl]
    rw [List.map_append, List.map_cons, List.map_nil, List.nodup_append]
    refine ⟨h, List.nodup_singleton _, fun x hx hx2 => ?_⟩
    have hxk : x = p.missing_skills := by simpa using hx2
    subst hxk
    rcases List.mem_map.mp hx with ⟨e, he, hfe⟩
    exact lookupKey_eq_none hl e he hfe
  | some q =>
    simp only [dedupStep, hl]
    split
    · rw [updateAt_map_fst]
      exact h
    · exact h

theorem link_dedupStep {acc : List (Finset String × TransitionPath)}
    {p : TransitionPath} (h : ∀ e ∈ acc, e.2.missing_skills = e.1) :
    ∀ e ∈ dedupStep acc p, e.2.missing_skills = e.1 := by
  intro e he
  rcases mem_dedupStep he with ⟨h1, h2⟩ | hm
  · rw [h2, h1]
  · exact h e hm

theorem cover_mono_dedupStep {acc : List (Finset String × TransitionPath)}
    {p : TransitionPath} {k : Finset String} {d : ℚ}
    (hnd : (acc.map Prod.fst).Nodup)
    (hcov : ∃ e ∈ acc, e.1 = k ∧ e.2.transition_difficulty ≤ d) :
    ∃ e ∈ dedupStep acc p, e.1 = k ∧ e.2.transition_difficulty ≤ d := by
  obtain ⟨e, he, hek, hed⟩ := hcov
  cases hl : lookupKey acc p.missing_skills with
  | none =>
    refine ⟨e, ?_, hek, hed⟩
    simp only [dedupStep, hl]
    exact List.mem_append.mpr (Or.inl he)
  | some q =>
    by_cases hlt : p.transition_difficulty < q.transition_difficulty
    · by_cases hk : e.1 = p.missing_skills
      · have hq : (p.missing_skills, q) ∈ acc := lookupKey_eq_some hl
        have heq : e = (p.missing_skills, q) :=
          entry_eq_of_fst_eq acc hnd e (p.missing_skills, q) he hq hk
        refine ⟨(p.missing_skills, p), ?_, ?_, ?_⟩
        · simp only [dedupStep, hl, if_pos hlt]
          exact mem_updateAt_self (List.mem_map.mpr ⟨(p.missing_skills, q), hq, rfl⟩)
        · rw [← hk, hek]
        · have hqd : q.transition_difficulty ≤ d := by
            rw [heq] at hed
            exact hed
          exact le_of_lt (lt_of_lt_of_le hlt hqd)
      · refine ⟨e, ?_, hek, hed⟩
        simp only [dedupStep, hl, if_pos hlt]
        exact mem_updateAt_of_ne he hk
    · refine ⟨e, ?_, hek, hed⟩
      simp only [dedupStep, hl, if_neg hlt]
      exact he

theorem cover_self_dedupStep {acc : List (Finset String × TransitionPath)}
    {p : TransitionPath} :
    ∃ e ∈ dedupStep acc p, e.1 = p.missing_skills ∧
      e.2.transition_difficulty ≤ p.transition_difficulty := by
  cases hl : lookupKey acc p.missing_skills with
  | none =>
    refine ⟨(p.missing_skills, p), ?_, rfl, le_refl _⟩
    simp only [dedupStep, hl]
    exact List.mem_append.mpr (Or.inr (by simp))
  | some q =>
    by_cases hlt : p.transition_difficulty < q.transition_difficulty
    · refine ⟨(p.missing_skills, p), ?_, rfl, le_refl _⟩
      simp only [dedupStep, hl, if_pos hlt]
      exact mem_updateAt_self (List.mem_map.mpr ⟨(p.missing_skills, q), lookupKey_eq_some hl, rfl⟩)
    · refine ⟨(p.missing_skills, q), ?_, rfl, le_of_not_lt hlt⟩
      simp only [dedupStep, hl, if_neg hlt]
      exact lookupKey_eq_some hl

theorem foldl_dedup_mem {l : List TransitionPath} :
    ∀ {acc : List (Finset String × TransitionPath)}
      {e : Finset String × TransitionPath},
      e ∈ l.foldl dedupStep acc → e ∈ acc ∨ e.2 ∈ l := by
  induction l with
  | nil =>
    intro acc e h
    rw [List.foldl_nil] at h
    exact Or.inl h
  | cons p rest ih =>
    intro acc e h
    rw [List.foldl_cons] at h
    rcases ih h with hacc | hrest
    · rcases mem_dedupStep hacc with ⟨h1, h2⟩ | hm
      · exact Or.inr (List.mem_cons.mpr (Or.inl h2))
      · exact Or.inl hm
    · exact Or.inr (List.mem_cons.mpr (Or.inr hrest))

theorem foldl_dedup_link_nodup {l : List TransitionPath} :
    ∀ {acc : List (Finset String × TransitionPath)},
      (∀ e ∈ acc, e.2.missing_skills = e.1) → (acc.map Prod.fst).Nodup →
      (∀ e ∈ l.foldl dedupStep acc, e.2.missing_skills = e.1) ∧
        ((l.foldl dedupStep acc).map Prod.fst).Nodup := by
  induction l with
  | nil =>
    intro acc h1 h2
    rw [List.foldl_nil]
    exact ⟨h1, h2⟩
  | cons p rest ih =>
    intro acc h1 h2
    rw [List.foldl_cons]
    exact ih (link_dedupStep h1) (nodup_keys_dedupStep h2)

theorem foldl_dedup_cover_mono {l : List TransitionPath} :
    ∀ {acc : List (Finset String × TransitionPath)} {k : Finset String} {d : ℚ},
      (acc.map Prod.fst).Nodup →
      (∃ e ∈ acc, e.1 = k ∧ e.2.transition_difficulty ≤ d) →
      ∃ e ∈ l.foldl dedupStep acc, e.1 = k ∧ e.2.transition_difficulty ≤ d := by
  induction l with
  | nil =>
    intro acc k d _ h
    rw [List.foldl_nil]
    exact h
  | cons p rest ih =>
    intro acc k d h2 h
    rw [List.foldl_cons]
    exact ih (nodup_keys_dedupStep h2) (cover_mono_dedupStep h2 h)

theorem foldl_dedup_cover {l : List TransitionPath} :
    ∀ {acc : List (Finset String × TransitionPath)},
      (acc.map Prod.fst).Nodup → ∀ p ∈ l,
      ∃ e ∈ l.foldl dedupStep acc, e.1 = p.missing_skills ∧
        e.2.transition_difficulty ≤ p.transition_difficulty := by
  induction l with
  | nil =>
    intro acc _ p hp
    exact absurd hp (by simp)
  | cons a rest ih =>
    intro acc h2 p hp
    rw [List.foldl_cons]
    rcases List.mem_cons.mp hp with rfl | hm
    · exact foldl_dedup_cover_mono (nodup_keys_dedupStep h2) cover_self_dedupStep
    · exact ih (nodup_keys_dedupStep h2) p hm

theorem mem_dedupPaths {l : List TransitionPath} {q : TransitionPath}
    (h : q ∈ dedupPaths l) : q ∈ l := by
  unfold dedupPaths at h
  rcases List.mem_map.mp h with ⟨e, he, rfl⟩
  rcases foldl_dedup_mem he with h1 | h1
  · exact absurd h1 (by simp)
  · exact h1

theorem nodup_missing_dedupPaths (l : List TransitionPath) :
    ((dedupPaths l).map TransitionPath.missing_skills).Nodup := by
  obtain ⟨hlink, hnd⟩ := @foldl_dedup_link_nodup l [] (by simp) (by simp)
  unfold dedupPaths
  rw [List.map_map]
  have hmaps : (l.foldl dedupStep []).map (TransitionPath.missing_skills ∘ Prod.snd) =
      (l.foldl dedupStep []).map Prod.fst := by
    apply List.map_congr_left
    intro e he
    exact hlink e he
  rw [hmaps]
  exact hnd

theorem cover_dedupPaths {l : List TransitionPath} {p : TransitionPath} (hp : p ∈ l) :
    ∃ q ∈ dedupPaths l, q.missing_skills = p.missing_skills ∧
      q.transition_difficulty ≤ p.transition_difficulty := by
  obtain ⟨e, he, h1, h2⟩ := @foldl_dedup_cover l [] (by simp) p hp
  refine ⟨e.2, List.mem_map_of_mem Prod.snd he, ?_, h2⟩
  have hlink := (@foldl_dedup_link_nodup l [] (by simp) (by simp)).1 e he
  rw [hlink, h1]

/-- C1: every path returned by `find_transition_paths` for known source and
target jobs has `transition_difficulty < 1`; no two returned paths share a
missing-skills set; every candidate path (direct or one-hop, difficulty < 1)
is represented in the result by a path with the same missing-skills set and
difficulty no larger than its own (so for equal missing-skill sets, the
lower-difficulty one is kept); and the result is sorted by ascending
difficulty with ties broken by descending common-skills count (`pathLe`). -/
theorem C1_find_transition_paths_invariants
    (catalog : List (String × Finset String)) (s t : String) (max_hops : ℤ)
    (source_skills target_skills : Finset String)
    (hs : lookupJob catalog s = some source_skills)
    (ht : lookupJob catalog t = some target_skills) :
    (∀ p ∈ find_transition_paths catalog s t max_hops, p.transition_difficulty < 1) ∧
    ((find_transition_paths catalog s t max_hops).map TransitionPath.missing_skills).Nodup ∧
    (0 < max_hops → ∀ p ∈ candidatePaths catalog s t source_skills target_skills,
      ∃ q ∈ find_transition_paths catalog s t max_hops,
        q.missing_skills = p.missing_skills ∧
        q.transition_difficulty ≤ p.transition_difficulty) ∧
    (find_transition_paths catalog s t max_hops).Sorted pathLe := by
  by_cases hmax : max_hops ≤ 0
  · have heq : find_transition_paths catalog s t max_hops =
        (if (create_transition_path s t source_skills target_skills).transition_difficulty < 1
         then [create_transition_path s t source_skills target_skills] else []) := by
      simp only [find_transition_paths, hs, ht]
      rw [if_pos hmax]
    rw [heq]
    refine ⟨?_, ?_, ?_, ?_⟩
    · intro p hp
      split at hp
      · rename_i hc
        rcases List.mem_singleton.mp hp with rfl
        exact hc
      · exact absurd hp (by simp)
    · split <;> simp
    · intro h0
      omega
    · split
      · exact List.sorted_singleton _
      · exact List.sorted_nil
  · have heq : find_transition_paths catalog s t max_hops =
        (dedupPaths (candidatePaths catalog s t source_skills target_skills)).insertionSort
          pathLe := by
      simp only [find_transition_paths, hs, ht]
      rw [if_neg hmax]
    rw [heq]
    refine ⟨?_, ?_, ?_, ?_⟩
    · intro p hp
      rw [List.mem_insertionSort] at hp
      have hmem := mem_dedupPaths hp
      have hfil := (List.mem_filter.mp hmem).2
      simpa using hfil
    · have perm := List.perm_insertionSort pathLe
        (dedupPaths (candidatePaths catalog s t source_skills target_skills))
      exact ((perm.map TransitionPath.missing_skills).nodup_iff).mpr
        (nodup_missing_dedupPaths _)
    · intro _ p hp
      obtain ⟨q, hq, h1, h2⟩ := cover_dedupPaths hp
      exact ⟨q, (List.mem_insertionSort pathLe).mpr hq, h1, h2⟩
    · exact List.sorted_insertionSort pathLe _

/-- Witness for C1 at a concrete three-job catalog with `max_hops = 2`. -/
theorem C1_find_transition_paths_invariants_witness :
    lookupJob [("A", {"python", "sql"}), ("B", {"sql", "excel"}), ("C", {"python", "excel"})]
        "A" = some {"python", "sql"} ∧
    lookupJob [("A", {"python", "sql"}), ("B", {"sql", "excel"}), ("C", {"python", "excel"})]
        "B" = some {"sql", "excel"} ∧
    ((∀ p ∈ find_transition_paths
        [("A", {"python", "sql"}), ("B", {"sql", "excel"}), ("C", {"python", "excel"})]
        "A" "B" 2, p.transition_difficulty < 1) ∧
      ((find_transition_paths
        [("A", {"python", "sql"}), ("B", {"sql", "excel"}), ("C", {"python", "excel"})]
        "A" "B" 2).map TransitionPath.missing_skills).Nodup ∧
      ((0 : ℤ) < 2 → ∀ p ∈ candidatePaths
          [("A", {"python", "sql"}), ("B", {"sql", "excel"}), ("C", {"python", "excel"})]
          "A" "B" {"python", "sql"} {"sql", "excel"},
        ∃ q ∈ find_transition_paths
          [("A", {"python", "sql"}), ("B", {"sql", "excel"}), ("C", {"python", "excel"})]
          "A" "B" 2,
          q.missing_skills = p.missing_skills ∧
          q.transition_difficulty ≤ p.transition_difficulty) ∧
      (find_transition_paths
        [("A", {"python", "sql"}), ("B", {"sql", "excel"}), ("C", {"python", "excel"})]
        "A" "B" 2).Sorted pathLe) :=
  ⟨rfl, rfl,
    C1_find_transition_paths_invariants
      [("A", {"python", "sql"}), ("B", {"sql", "excel"}), ("C", {"python", "excel"})]
      "A" "B" 2 {"python", "sql"} {"sql", "excel"} rfl rfl⟩

/-! ### Lemmas about constant series and the shape of analyze_series -/

theorem rat_sqrt_zero : Rat.sqrt 0 = 0 := by
  simp [Rat.sqrt]

theorem headD_of_const {vs : List ℚ} {c : ℚ} (hc : ∀ v ∈ vs, v = c) (hne : vs ≠ []) :
    vs.headD 0 = c := by
  cases vs with
  | nil => exact absurd rfl hne
  | cons v rest => exact hc v (List.mem_cons_self v rest)

theorem getLastD_of_const {vs : List ℚ} {c : ℚ} (hc : ∀ v ∈ vs, v = c) (hne : vs ≠ []) :
    vs.getLastD 0 = c := by
  cases vs with
  | nil => exact absurd rfl hne
  | cons v rest =>
    rw [List.getLastD_cons]
    exact hc _ (List.getLastD_mem_cons rest v)

theorem sum_of_const {vs : List ℚ} {c : ℚ} (hc : ∀ v ∈ vs, v = c) :
    vs.sum = (vs.length : ℚ) * c := by
  induction vs with
  | nil => simp
  | cons v rest ih =>
    rw [List.sum_cons, ih (fun x hx => hc x (List.mem_cons.mpr (Or.inr hx))),
      hc v (List.mem_cons.mpr (Or.inl rfl)), List.length_cons]
    push_cast
    ring

theorem olsConfidence_of_const {vs : List ℚ} {c : ℚ} (hc : ∀ v ∈ vs, v = c)
    (hne : vs ≠ []) : olsConfidence vs = 0 := by
  have hn : (vs.length : ℚ) ≠ 0 :=
    Nat.cast_ne_zero.mpr (fun h => hne (List.length_eq_zero.mp h))
  have hybar : vs.sum / (vs.length : ℚ) = c := by
    rw [sum_of_const hc]
    exact mul_div_cancel_left₀ c hn
  have hss : (vs.map (fun y => (y - vs.sum / (vs.length : ℚ)) ^ 2)).sum = 0 := by
    apply List.sum_eq_zero
    intro x hx
    rcases List.mem_map.mp hx with ⟨y, hy, rfl⟩
    rw [hc y hy, hybar]
    ring
  simp only [olsConfidence]
  rw [hss]
  simp

theorem pctChange_self (c : ℚ) : pctChange c c = 0 := by
  unfold pctChange
  split
  · rw [sub_self, zero_div]
  · rfl

theorem trendDirectionOf_ne_volatile (thr pct : ℚ) :
    trendDirectionOf thr pct ≠ TrendDirection.volatile := by
  unfold trendDirectionOf
  split_ifs <;> decide

theorem analyze_series_isSome {mp : ℕ} {thr : ℚ} {values : List ℚ} {dates : List ℕ}
    (hlen : mp ≤ values.length) :
    analyze_series mp thr values dates = some
      { direction := trendDirectionOf thr (pctChange (values.headD 0) (values.getLastD 0))
        magnitude := |pctChange (values.headD 0) (values.getLastD 0)|
        confidence := olsConfidence values
        start_value := values.headD 0
        end_value := values.getLastD 0
        period := (dates.headD 0, dates.getLastD 0) } := by
  simp only [analyze_series]
  rw [if_neg (not_lt.mpr hlen)]

theorem analyze_series_of_const (mp : ℕ) (thr : ℚ) (values : List ℚ) (dates : List ℕ)
    (c : ℚ) (hc : ∀ v ∈ values, v = c) (hne : values ≠ []) (hlen : mp ≤ values.length) :
    ∃ r, analyze_series mp thr values dates = some r ∧ r.confidence = 0 ∧
      (0 < thr → r.direction = TrendDirection.stable) := by
  refine ⟨_, analyze_series_isSome hlen, ?_, ?_⟩
  · exact olsConfidence_of_const hc hne
  · intro hthr
    show trendDirectionOf thr (pctChange (values.headD 0) (values.getLastD 0)) =
      TrendDirection.stable
    rw [headD_of_const hc hne, getLastD_of_const hc hne, pctChange_self]
    unfold trendDirectionOf
    rw [if_pos (by simpa using hthr)]

theorem analyze_series_direction {mp : ℕ} {thr : ℚ} {values : List ℚ} {dates : List ℕ}
    {r : TrendResult} (h : analyze_series mp thr values dates = some r) :
    r.direction = trendDirectionOf thr (pctChange (values.headD 0) (values.getLastD 0)) := by
  simp only [analyze_series] at h
  split at h
  · exact absurd h (by simp)
  · rw [← Option.some_inj.mp h]

theorem detect_trends_mem_entry {mp : ℕ} {thr : ℚ} {rows : List Row} {grouped : Bool}
    {e : String × TrendResult} (h : e ∈ detect_trends mp thr rows grouped) :
    ∃ values dates r, analyze_series mp thr values dates = some r ∧ e.2 = r := by
  simp only [detect_trends] at h
  split at h
  · exact absurd h (by simp)
  · split at h
    · obtain ⟨k, hk, hfk⟩ := List.mem_filterMap.mp h
      split at hfk
      · exact absurd hfk (by simp)
      · split at hfk
        · rename_i result heq
          refine ⟨_, _, result, heq, ?_⟩
          rw [← Option.some_inj.mp hfk]
        · exact absurd hfk (by simp)
    · split at h
      · rename_i result heq
        refine ⟨_, _, result, heq, ?_⟩
        have he := List.mem_singleton.mp h
        rw [he]
      · exact absurd h (by simp)

/-! ### Claims C3 and C4 -/

/-- C3 counterexample: a constant series of three observations with
`threshold = 0` yields direction DECREASING (not STABLE): with
`pct_change = 0` the test `|pct_change| < 0` fails and `0 > 0` fails, so the
claim "direction = STABLE regardless of threshold" is false at this input
(confidence is still 0). -/
theorem C3_counterexample_threshold_zero :
    (detect_trends 3 0 [⟨[], 0, 3⟩, ⟨[], 1, 3⟩, ⟨[], 2, 3⟩] false).map
      (fun e => (e.1, e.2.direction, e.2.confidence)) =
      [("overall", TrendDirection.decreasing, 0)] := by
  with_unfolding_all decide

/-- C3 (amended): for every constant series with at least `min_periods`
observations, `detect_trends` produces the single result keyed "overall"
with confidence 0 — for every threshold — and its direction is STABLE
whenever the threshold is positive. (The original claim said direction =
STABLE "regardless of threshold"; for `threshold ≤ 0` the direction is
DECREASING, see the counterexample. Confidence = 0 needs no restriction.) -/
theorem C3_constant_series_confidence_zero_stable
    (min_periods : ℕ) (threshold : ℚ) (rows : List Row) (c : ℚ)
    (hc : ∀ r ∈ rows, r.value = c) (hne : rows ≠ [])
    (hlen : min_periods ≤ rows.length) :
    ∃ tr, detect_trends min_periods threshold rows false = [("overall", tr)] ∧
      tr.confidence = 0 ∧ (0 < threshold → tr.direction = TrendDirection.stable) := by
  have h0 : ¬(rows.length = 0 ∨ rows.length < min_periods) := by
    push_neg
    exact ⟨fun h => hne (List.length_eq_zero.mp h), hlen⟩
  have hvals : ∀ v ∈ (rows.insertionSort dateLe).map Row.value, v = c := by
    intro v hv
    rcases List.mem_map.mp hv with ⟨r, hr, rfl⟩
    exact hc r ((List.mem_insertionSort dateLe).mp hr)
  have hvne : (rows.insertionSort dateLe).map Row.value ≠ [] := by
    intro h
    apply hne
    have hlen2 := congrArg List.length h
    rw [List.length_map, (List.perm_insertionSort dateLe rows).length_eq] at hlen2
    exact List.length_eq_zero.mp hlen2
  have hvlen : min_periods ≤ ((rows.insertionSort dateLe).map Row.value).length := by
    rw [List.length_map, (List.perm_insertionSort dateLe rows).length_eq]
    exact hlen
  obtain ⟨r, hr, hconf, hdir⟩ := analyze_series_of_const min_periods threshold
    ((rows.insertionSort dateLe).map Row.value)
    ((rows.insertionSort dateLe).map Row.date) c hvals hvne hvlen
  refine ⟨r, ?_, hconf, hdir⟩
  simp only [detect_trends]
  rw [if_neg h0, if_neg (by simp), hr]

/-- Witness for C3 (amended) on the constant series 5, 5, 5 with
`min_periods = 3` and `threshold = 1`. -/
theorem C3_constant_series_confidence_zero_stable_witness :
    (∀ r ∈ ([⟨[], 0, 5⟩, ⟨[], 1, 5⟩, ⟨[], 2, 5⟩] : List Row), r.value = 5) ∧
    ([⟨[], 0, 5⟩, ⟨[], 1, 5⟩, ⟨[], 2, 5⟩] : List Row) ≠ [] ∧
    3 ≤ ([⟨[], 0, 5⟩, ⟨[], 1, 5⟩, ⟨[], 2, 5⟩] : List Row).length ∧
    (∃ tr, detect_trends 3 1 [⟨[], 0, 5⟩, ⟨[], 1, 5⟩, ⟨[], 2, 5⟩] false =
      [("overall", tr)] ∧ tr.confidence = 0 ∧
      ((0 : ℚ) < 1 → tr.direction = TrendDirection.stable)) :=
  ⟨by decide, by decide, by decide,
    C3_constant_series_confidence_zero_stable 3 1
      [⟨[], 0, 5⟩, ⟨[], 1, 5⟩, ⟨[], 2, 5⟩] 5 (by decide) (by decide) (by decide)⟩

/-- C4: for every series with at least `min_periods` observations the
produced TrendResult classifies its direction from
`pct_change = (end - start) / start` (0 when start is 0): STABLE when
`|pct_change| < threshold`, else INCREASING when positive, else DECREASING;
magnitude is `|pct_change|`; and no entry of any `detect_trends` result ever
carries the VOLATILE direction. -/
theorem C4_direction_classification (min_periods : ℕ) (threshold : ℚ) :
    (∀ (values : List ℚ) (dates : List ℕ), values ≠ [] →
      min_periods ≤ values.length →
      ∃ r, analyze_series min_periods threshold values dates = some r ∧
        r.direction =
          (if |pctChange (values.headD 0) (values.getLastD 0)| < threshold then
            TrendDirection.stable
          else if 0 < pctChange (values.headD 0) (values.getLastD 0) then
            TrendDirection.increasing
          else TrendDirection.decreasing) ∧
        r.magnitude = |pctChange (values.headD 0) (values.getLastD 0)|) ∧
    (∀ (rows : List Row) (grouped : Bool) (e : String × TrendResult),
      e ∈ detect_trends min_periods threshold rows grouped →
      e.2.direction ≠ TrendDirection.volatile) ∧
    (∀ (rows : List Row), rows ≠ [] → min_periods ≤ rows.length →
      ∃ tr, detect_trends min_periods threshold rows false = [("overall", tr)] ∧
        tr.direction =
          (if |pctChange (((rows.insertionSort dateLe).map Row.value).headD 0)
              (((rows.insertionSort dateLe).map Row.value).getLastD 0)| < threshold then
            TrendDirection.stable
          else if 0 < pctChange (((rows.insertionSort dateLe).map Row.value).headD 0)
              (((rows.insertionSort dateLe).map Row.value).getLastD 0) then
            TrendDirection.increasing
          else TrendDirection.decreasing) ∧
        tr.magnitude = |pctChange (((rows.insertionSort dateLe).map Row.value).headD 0)
          (((rows.insertionSort dateLe).map Row.value).getLastD 0)|) := by
  refine ⟨?_, ?_, ?_⟩
  · intro values dates _ hlen
    exact ⟨_, analyze_series_isSome hlen, rfl, rfl⟩
  · intro rows grouped e he
    obtain ⟨values, dates, r, hr, he2⟩ := detect_trends_mem_entry he
    rw [he2, analyze_series_direction hr]
    exact trendDirectionOf_ne_volatile _ _
  · intro rows hne hlen
    have h0 : ¬(rows.length = 0 ∨ rows.length < min_periods) := by
      push_neg
      exact ⟨fun h => hne (List.length_eq_zero.mp h), hlen⟩
    have hvlen : min_periods ≤ ((rows.insertionSort dateLe).map Row.value).length := by
      rw [List.length_map, (List.perm_insertionSort dateLe rows).length_eq]
      exact hlen
    have heq : detect_trends min_periods threshold rows false =
        [("overall",
          { direction := trendDirectionOf threshold (pctChange
              (((rows.insertionSort dateLe).map Row.value).headD 0)
              (((rows.insertionSort dateLe).map Row.value).getLastD 0))
            magnitude := |pctChange (((rows.insertionSort dateLe).map Row.value).headD 0)
              (((rows.insertionSort dateLe).map Row.value).getLastD 0)|
            confidence := olsConfidence ((rows.insertionSort dateLe).map Row.value)
            start_value := ((rows.insertionSort dateLe).map Row.value).headD 0
            end_value := ((rows.insertionSort dateLe).map Row.value).getLastD 0
            period := (((rows.insertionSort dateLe).map Row.date).headD 0,
              ((rows.insertionSort dateLe).map Row.date).getLastD 0) })] := by
      simp only [detect_trends]
      rw [if_neg h0, if_neg (by simp), analyze_series_isSome hvlen]
    exact ⟨_, heq, rfl, rfl⟩

/-- Witness for C4 on the series 4, 5, 6 (pct_change 1/2, INCREASING) with
`min_periods = 3` and `threshold = 1/10`, both at series level and through
`detect_trends` on the corresponding rows. -/
theorem C4_direction_classification_witness :
    ([4, 5, 6] : List ℚ) ≠ [] ∧ 3 ≤ ([4, 5, 6] : List ℚ).length ∧
    (∃ r, analyze_series 3 (1/10) [4, 5, 6] [0, 1, 2] = some r ∧
      r.direction =
        (if |pctChange (([4, 5, 6] : List ℚ).headD 0) (([4, 5, 6] : List ℚ).getLastD 0)|
            < (1/10 : ℚ) then TrendDirection.stable
        else if 0 < pctChange (([4, 5, 6] : List ℚ).headD 0) (([4, 5, 6] : List ℚ).getLastD 0)
          then TrendDirection.increasing
        else TrendDirection.decreasing) ∧
      r.magnitude = |pctChange (([4, 5, 6] : List ℚ).headD 0) (([4, 5, 6] : List ℚ).getLastD 0)|) ∧
    ([⟨[], 0, 4⟩, ⟨[], 1, 5⟩, ⟨[], 2, 6⟩] : List Row) ≠ [] ∧
    3 ≤ ([⟨[], 0, 4⟩, ⟨[], 1, 5⟩, ⟨[], 2, 6⟩] : List Row).length ∧
    (∃ tr, detect_trends 3 (1/10) [⟨[], 0, 4⟩, ⟨[], 1, 5⟩, ⟨[], 2, 6⟩] false =
      [("overall", tr)] ∧
      tr.direction =
        (if |pctChange (4 : ℚ) 6| < (1/10 : ℚ) then TrendDirection.stable
        else if 0 < pctChange (4 : ℚ) 6 then TrendDirection.increasing
        else TrendDirection.decreasing) ∧
      tr.magnitude = |pctChange (4 : ℚ) 6|) :=
  ⟨by decide, by decide,
    (C4_direction_classification 3 (1/10)).1 [4, 5, 6] [0, 1, 2] (by decide) (by decide),
    by decide, by decide,
    (C4_direction_classification 3 (1/10)).2.2 [⟨[], 0, 4⟩, ⟨[], 1, 5⟩, ⟨[], 2, 6⟩]
      (by decide) (by decide)⟩

/-! ### Claims C5, C6, C8 -/

theorem map_proj_mk (l : List (Row × ℚ)) :
    (l.map (fun p => ({ row := p.1, z_score := p.2, shock_magnitude := abs p.2,
                        shock_direction := if (0 : ℚ) < p.2 then "positive" else "negative" } :
      ShockRow))).map
      (fun s => (s.row, s.z_score)) = l := by
  rw [List.map_map]
  conv_rhs => rw [← List.map_id l]
  apply List.map_congr_left
  intro p hp
  rfl

/-- C5 (evaluating the code at and around the failing input): on every
non-empty frame with grouping columns, `detect_shocks` raises instead of
returning the shock table the claim describes — the `z_score` assignment at
trend_detector.py line 170 (or, for all-singleton groups, the later boolean
mask) fails, because `GroupBy.apply` wraps the per-group arrays into a
length-n_groups object Series. On the ungrouped path, where the call
completes, the claimed behavior holds: the result is exactly the z-scored
rows with `|z| ≥ z_threshold` (as a permutation, since the final sort
reorders them; a NaN z-score fails every comparison), each annotated with
`shock_magnitude = |z|` and direction "positive" exactly when `z > 0`
("negative" otherwise, including `z = 0`), sorted by signed z-score
descending (`shockGe`). -/
theorem C5_grouped_raises_ungrouped_filter_annotate_sort :
    (∀ (rows : List Row) (z_threshold : ℚ), rows ≠ [] →
      detect_shocks rows true z_threshold = .error ()) ∧
    (∀ (rows : List Row) (z_threshold : ℚ), rows ≠ [] →
      ∃ out, detect_shocks rows false z_threshold = .ok out ∧
        (out.map (fun s => (s.row, s.z_score))).Perm
          ((withZ rows).filterMap (fun p =>
            match p.2 with
            | some z => if z_threshold ≤ |z| then some (p.1, z) else none
            | none => none)) ∧
        (∀ s ∈ out, s.shock_magnitude = |s.z_score| ∧
          s.shock_direction = (if 0 < s.z_score then "positive" else "negative")) ∧
        out.Sorted shockGe) := by
  constructor
  · intro rows z_threshold hne
    have h0 : ¬ rows.length = 0 := fun h => hne (List.length_eq_zero.mp h)
    simp only [detect_shocks]
    rw [if_neg h0, if_pos trivial]
  · intro rows z_threshold hne
    have h0 : ¬ rows.length = 0 := fun h => hne (List.length_eq_zero.mp h)
    have heq : detect_shocks rows false z_threshold = .ok
        ((((withZ rows).filterMap (fun p =>
          match p.2 with
          | some z => if z_threshold ≤ |z| then some (p.1, z) else none
          | none => none)).map
          (fun p => ({ row := p.1, z_score := p.2, shock_magnitude := abs p.2,
                       shock_direction := if (0 : ℚ) < p.2 then "positive" else "negative" } :
            ShockRow))).insertionSort shockGe) := by
      simp only [detect_shocks]
      rw [if_neg h0, if_neg (by simp)]
    refine ⟨_, heq, ?_, ?_, ?_⟩
    · have hperm := (List.perm_insertionSort shockGe
        (((withZ rows).filterMap (fun p =>
          match p.2 with
          | some z => if z_threshold ≤ |z| then some (p.1, z) else none
          | none => none)).map
          (fun p => ({ row := p.1, z_score := p.2, shock_magnitude := abs p.2,
                       shock_direction := if (0 : ℚ) < p.2 then "positive" else "negative" } :
            ShockRow)))).map
        (fun s : ShockRow => (s.row, s.z_score))
      rw [map_proj_mk] at hperm
      exact hperm
    · intro s hs
      rw [List.mem_insertionSort] at hs
      rcases List.mem_map.mp hs with ⟨p, hp, rfl⟩
      exact ⟨rfl, rfl⟩
    · exact List.sorted_insertionSort shockGe _

/-- Witness for C5: the grouped two-row input raises; the same rows without
grouping produce the claimed filtered, annotated, sorted output. -/
theorem C5_grouped_raises_ungrouped_filter_annotate_sort_witness :
    ([⟨["g"], 0, 0⟩, ⟨["g"], 1, 10⟩] : List Row) ≠ [] ∧
    detect_shocks [⟨["g"], 0, 0⟩, ⟨["g"], 1, 10⟩] true 2 = .error () ∧
    (∃ out, detect_shocks [⟨["g"], 0, 0⟩, ⟨["g"], 1, 10⟩] false 2 = .ok out ∧
      (out.map (fun s => (s.row, s.z_score))).Perm
        ((withZ [⟨["g"], 0, 0⟩, ⟨["g"], 1, 10⟩]).filterMap (fun p =>
          match p.2 with
          | some z => if (2 : ℚ) ≤ |z| then some (p.1, z) else none
          | none => none)) ∧
      (∀ s ∈ out, s.shock_magnitude = |s.z_score| ∧
        s.shock_direction = (if 0 < s.z_score then "positive" else "negative")) ∧
      out.Sorted shockGe) :=
  ⟨by decide,
    (C5_grouped_raises_ungrouped_filter_annotate_sort).1
      [⟨["g"], 0, 0⟩, ⟨["g"], 1, 10⟩] 2 (by decide),
    (C5_grouped_raises_ungrouped_filter_annotate_sort).2
      [⟨["g"], 0, 0⟩, ⟨["g"], 1, 10⟩] 2 (by decide)⟩

/-- C6 (evaluating the code at the failing input): the per-group z-score
function of trend_detector.py lines 162-166 does map a zero-sample-variance
series of two or more observations to all-zero z-scores, exactly as the
claim's first part says of the group; but `detect_shocks` itself raises on
every grouped non-empty frame — in particular on the zero-variance group
with values 5, 5 — so the z-scores never reach a result frame and no shock
table is produced at all, for any `z_threshold`. -/
theorem C6_zero_variance_zscores_and_grouped_raises :
    (∀ (values : List ℚ) (x : ℚ), sampleVar values = 0 → 2 ≤ values.length →
      zscoreFor values x = some 0) ∧
    detect_shocks [⟨["g"], 0, 5⟩, ⟨["g"], 1, 5⟩] true 2 = .error () := by
  constructor
  · intro values x hvar hlen
    have hstd : sampleStd values = 0 := by
      unfold sampleStd
      rw [hvar, rat_sqrt_zero]
    unfold zscoreFor
    rw [if_neg (by omega), if_neg (by simp [hstd])]
  · rfl

/-- Witness for C6: the zero-variance series 5, 5 has z-score 0 at each of
its values. -/
theorem C6_zero_variance_zscores_and_grouped_raises_witness :
    sampleVar ([5, 5] : List ℚ) = 0 ∧ 2 ≤ ([5, 5] : List ℚ).length ∧
    zscoreFor [5, 5] 5 = some 0 :=
  ⟨by with_unfolding_all decide, by decide,
    (C6_zero_variance_zscores_and_grouped_raises).1 [5, 5] 5
      (by with_unfolding_all decide) (by decide)⟩

theorem detect_trends_grouped_entry {mp : ℕ} {thr : ℚ} {rows : List Row}
    {e : String × TrendResult} (h : e ∈ detect_trends mp thr rows true) :
    ∃ k, k ∈ rows.map Row.key ∧
      ¬ ((rows.insertionSort keyDateLe).filter (fun r => r.key = k)).length < mp ∧
      e.1 = String.intercalate "," k := by
  simp only [detect_trends, if_true] at h
  split at h
  · exact absurd h (by simp)
  · obtain ⟨k, hk, hfk⟩ := List.mem_filterMap.mp h
    have hnotlt :
        ¬ ((rows.insertionSort keyDateLe).filter (fun r => r.key = k)).length < mp := by
      intro hlt
      rw [if_pos hlt] at hfk
      exact absurd hfk (by simp)
    refine ⟨k, ?_, hnotlt, ?_⟩
    · have hmem := List.mem_dedup.mp hk
      exact ((List.perm_insertionSort keyDateLe rows).map Row.key).mem_iff.mp hmem
    · rw [if_neg hnotlt] at hfk
      split at hfk
      · rw [← Option.some_inj.mp hfk]
      · exact absurd hfk (by simp)

/-- C8: an empty input, or one with fewer than `min_periods` rows overall,
makes `detect_trends` return the empty mapping (for either grouping mode);
and with grouping, a group with fewer than `min_periods` rows contributes no
entry: its joined key is absent from the result (assuming no other group key
joins to the same string, which is what makes the joined key denote that
group). -/
theorem C8_insufficient_data_empty_result (min_periods : ℕ) (threshold : ℚ)
    (rows : List Row) :
    (∀ grouped, rows = [] ∨ rows.length < min_periods →
      detect_trends min_periods threshold rows grouped = []) ∧
    (∀ k, k ∈ rows.map Row.key →
      (rows.filter (fun r => r.key = k)).length < min_periods →
      (∀ k2 ∈ rows.map Row.key,
        String.intercalate "," k2 = String.intercalate "," k → k2 = k) →
      String.intercalate "," k ∉
        (detect_trends min_periods threshold rows true).map Prod.fst) := by
  constructor
  · intro grouped h
    have h0 : rows.length = 0 ∨ rows.length < min_periods := by
      rcases h with h | h
      · exact Or.inl (by rw [h]; rfl)
      · exact Or.inr h
    simp only [detect_trends]
    rw [if_pos h0]
  · intro k hk hcount huniq hmem
    rcases List.mem_map.mp hmem with ⟨e, he, hfe⟩
    obtain ⟨k2, hk2, hlen2, he1⟩ := detect_trends_grouped_entry he
    have hjoin : String.intercalate "," k2 = String.intercalate "," k := by
      rw [← he1, hfe]
    have hkk : k2 = k := huniq k2 hk2 hjoin
    subst hkk
    apply hlen2
    have hp := (List.perm_insertionSort keyDateLe rows).filter
      (fun r => decide (r.key = k2))
    rw [hp.length_eq]
    exact hcount

/-- Witness for C8 at a concrete table whose group "a" has 2 rows and group
"b" has 3 rows, with `min_periods = 3`. -/
theorem C8_insufficient_data_empty_result_witness :
    ["a"] ∈ ([⟨["a"], 0, 1⟩, ⟨["a"], 1, 2⟩, ⟨["b"], 0, 1⟩, ⟨["b"], 1, 5⟩, ⟨["b"], 2, 9⟩] :
      List Row).map Row.key ∧
    (([⟨["a"], 0, 1⟩, ⟨["a"], 1, 2⟩, ⟨["b"], 0, 1⟩, ⟨["b"], 1, 5⟩, ⟨["b"], 2, 9⟩] :
      List Row).filter (fun r => r.key = ["a"])).length < 3 ∧
    (∀ k2 ∈ ([⟨["a"], 0, 1⟩, ⟨["a"], 1, 2⟩, ⟨["b"], 0, 1⟩, ⟨["b"], 1, 5⟩, ⟨["b"], 2, 9⟩] :
        List Row).map Row.key,
      String.intercalate "," k2 = String.intercalate "," ["a"] → k2 = ["a"]) ∧
    String.intercalate "," ["a"] ∉
      (detect_trends 3 1
        [⟨["a"], 0, 1⟩, ⟨["a"], 1, 2⟩, ⟨["b"], 0, 1⟩, ⟨["b"], 1, 5⟩, ⟨["b"], 2, 9⟩]
        true).map Prod.fst :=
  ⟨by decide, by decide, by decide,
    (C8_insufficient_data_empty_result 3 1
      [⟨["a"], 0, 1⟩, ⟨["a"], 1, 2⟩, ⟨["b"], 0, 1⟩, ⟨["b"], 1, 5⟩, ⟨["b"], 2, 9⟩]).2
      ["a"] (by decide) (by decide) (by decide)⟩

end UT
